import Mathlib

/-!
Verification of the float conversion algorithm in
`src/Year1/Semester2/CS/float.js` (class `Float`: `toBinary`, `toDecimal`
and their helpers).

Modelling conventions:
* JS numbers are modelled as exact rationals (`ℚ`).  The spec (sections 4.4
  and 9) treats the decimal digit sequence of the input as authoritative and
  exact, and every claim below is settled on inputs whose decimal/binary
  expansions are exact, where JS double arithmetic agrees with `ℚ`.
* JS strings of binary digits are modelled as `List Char`.
* `this.bias` is a JS number; the constructor computes
  `Math.pow(2, exponent - 1) - 1`, which is the rational `2^(e-1) - 1`
  (equal to `-1/2` when `e = 0`).  The spec invariant (section 3) requires
  `exponentBits ≥ 1`, and every claim about `toBinary`/`toDecimal` carries
  that hypothesis; on that domain the bias is the integer `2^(e-1) - 1` and
  `Float.biasInt` below extracts it (`Rat.num` of an integral rational).
  `Math.pow(2, k)` with integer `k` is `(2:ℚ)^(k:ℤ)`.
* The JS `while`/`do-while` loops are written with explicit fuel so that all
  definitions reduce in the kernel; the fuel is chosen to dominate the
  source's own loop bounds (`_toBinaryInt` halves its argument each step,
  so fuel `n+1` never runs out; the fractional loop is bounded by the
  source itself to `totalBits + 1` iterations).
-/

set_option linter.unusedVariables false

namespace FloatConv

/-- Result of `toDecimal`: the JS function returns `NaN`, `sign * Infinity`,
or an ordinary number. -/
inductive DecResult where
  | nan : DecResult
  | inf : ℤ → DecResult
  | val : ℚ → DecResult
deriving DecidableEq

/-- JS `s.substring(a, b)`: both indices are clamped to `[0, s.length]` and
swapped if out of order; the characters strictly between the two resulting
indices are returned. -/
def jsSubstring (l : List Char) (a b : ℕ) : List Char :=
  let a' := min a l.length
  let b' := min b l.length
  (l.take (max a' b')).drop (min a' b')

/-- JS `str.replace(/^0+/gm, "")`: strip leading `'0'` characters. -/
def stripZeros (l : List Char) : List Char :=
  l.dropWhile (fun c => c == '0')

/-- JS `parseInt(s, 2)` on a nonempty string of binary digits. -/
def parseBin (l : List Char) : ℕ :=
  l.foldl (fun a c => 2 * a + (if c = '1' then 1 else 0)) 0

/-- JS `parseInt(s, 2)` including the empty string, for which JS returns
`NaN` (modelled as `none`); `float.js` line 286 compares that result with
`0` via `===`, which is false for `NaN`. -/
def parseBinOpt (l : List Char) : Option ℕ :=
  if l = [] then none else some (parseBin l)

/-- Loop body of `_binaryFracToDec` (float.js lines 298-306):
`num += bits[i] * 2^-(i+1)`, accumulated one term per character starting at
exponent `-i`.  Addition is associated per term; the rational sum is the
same as the JS accumulation order. -/
def binFracAux : List Char → ℤ → ℚ
  | [], _ => 0
  | c :: rest, i => (if c = '1' then 1 else 0) * (2:ℚ) ^ (-i) + binFracAux rest (i + 1)

/-- Source `_binaryFracToDec(bits)` (float.js lines 298-306). -/
def binaryFracToDec (bits : List Char) : ℚ :=
  binFracAux bits 1

/-- The do-while loop of `_toBinaryInt` (float.js lines 312-315): push
`n % 2`, replace `n` by `n / 2`, continue while the quotient is positive.
Digits are produced least-significant first.  `fuel` only bounds the
iteration count; `binNatDigits` passes `n + 1`, which the halving loop can
never exhaust. -/
def binDigitsAux : ℕ → ℕ → List Char
  | 0, _ => []
  | fuel + 1, n =>
    (if n % 2 = 1 then '1' else '0') ::
      (if 0 < n / 2 then binDigitsAux fuel (n / 2) else [])

/-- Source `_toBinaryInt(num)` (float.js lines 308-318) on the absolute value of
its argument (the source applies `Math.abs` first): binary digits of `n`,
most significant first; `0` yields `"0"`. -/
def toBinaryIntChars (n : ℕ) : List Char :=
  (binDigitsAux (n + 1) n).reverse

/-- The fractional-digit loop of `toBinary` (float.js lines 151-162):
while the remainder is positive and at most `fuel` times, double the
remainder, emit its integer part as a digit, and keep its fractional part.
(`parseInt(this._unexponentiate(nn))` is the integer part of `nn`;
re-parsing `"0." + digits` is the fractional part, and a remainder that
becomes an integer re-parses as `NaN`, which like `0` ends the loop.)
`toBinary` calls this with `fuel = totalBits + 1`, matching
`iters <= decNLim` for `iters = 0, 1, ..., totalBits`. -/
def fracLoop : ℕ → ℚ → List Char
  | 0, _ => []
  | fuel + 1, f =>
    if 0 < f then
      Nat.digitChar (Int.toNat ⌊f * 2⌋) :: fracLoop fuel (f * 2 - ⌊f * 2⌋)
    else []

/-- Offset-exponent computation of `toBinary` (float.js lines 166-173):
from the stripped integer bits, or else the fractional bits. -/
def offsetExp (intBits decBits : List Char) : ℤ :=
  let normIntBits := stripZeros intBits
  if '1' ∈ normIntBits then (normIntBits.length : ℤ) - 1
  else if '1' ∈ decBits then -(((decBits.indexOf '1' : ℕ) : ℤ) + 1)
  else 0

/-- The rounding loop of `toBinary` (float.js lines 216-240), operating on
the reversed (least-significant-first) mantissa digits.  `sum` is the
parsed round bit and never changes; `carry` starts at `0`.  The three
`switch` cases on `bit + sum`:
* `0`: write the carry digit and break;
* `1`: write `'0'` and clear the carry if it is set, else write `'1'`;
  break;
* `2`: overwrite with `'1'` only when the carry is set, set the carry,
  continue.
On break the remaining digits are returned unchanged. -/
def carryAdd (sum : ℕ) : ℕ → List Char → List Char
  | _, [] => []
  | carry, b :: rest =>
    let bit : ℕ := if b = '1' then 1 else 0
    if bit + sum = 0 then (if carry = 1 then '1' else '0') :: rest
    else if bit + sum = 1 then (if carry = 1 then '0' else '1') :: rest
    else (if carry = 1 then '1' else b) :: carryAdd sum 1 rest

/-- The `Float` class (float.js lines 86-93): layout parameters and the
derived constants computed by the constructor. -/
structure Float where
  expBits : ℕ
  mantBits : ℕ
  totalBits : ℕ
  bias : ℚ
  maxAbs : ℚ
deriving DecidableEq

/-- Constructor `new Float(exponent, mantissa)` (float.js lines 87-93).  No validation
is performed: `totalBits = 1 + exponent + mantissa`,
`bias = Math.pow(2, exponent - 1) - 1`,
`maxAbs = Math.pow(2, totalBits - 1) - 1`. -/
def Float.make (exponent mantissa : ℕ) : Float :=
  { expBits := exponent
    mantBits := mantissa
    totalBits := 1 + exponent + mantissa
    bias := (2:ℚ) ^ ((exponent : ℤ) - 1) - 1
    maxAbs := (2:ℚ) ^ (((1 + exponent + mantissa : ℕ) : ℤ) - 1) - 1 }

/-- The integer value of `this.bias`, used wherever the source feeds the
bias into integer-valued arithmetic (`Math.pow` exponents, the biased
exponent).  For every layout satisfying the spec invariant
`exponentBits ≥ 1` the bias is the nonnegative integer `2^(e-1) - 1` and
this is exactly that integer. -/
def Float.biasInt (F : Float) : ℤ :=
  F.bias.num

/-- Source `toDecimal(bits)` (float.js lines 273-296). -/
def Float.toDecimal (F : Float) (bits : List Char) : DecResult :=
  if bits.length ≠ F.totalBits then .nan
  else if ¬ (∀ c ∈ bits, c = '0' ∨ c = '1') then .nan
  else
    let sign : ℤ := if bits.getD 0 ' ' = '0' then 1 else -1
    let rawExp : ℕ := parseBin (jsSubstring bits 1 (1 + F.expBits))
    let mant : List Char := jsSubstring bits (1 + F.expBits) (1 + F.expBits + F.mantBits)
    if F.bias * 2 < (rawExp : ℚ) then
      if (rawExp : ℚ) = F.bias * 2 + 1 ∧ parseBinOpt mant = some 0 then .inf sign
      else .nan
    else if rawExp = 0 then
      .val (sign * binaryFracToDec mant * (2:ℚ) ^ ((1 : ℤ) - F.biasInt))
    else
      .val (sign * (1 + binaryFracToDec mant) * (2:ℚ) ^ ((rawExp : ℤ) - F.biasInt))

/-- Biased exponent (float.js line 175):
`(_exp - bias === 0) ? 0 : _exp + bias`. -/
def Float.biasedExp (F : Float) (uexp : ℤ) : ℤ :=
  if uexp - F.biasInt = 0 then 0 else uexp + F.biasInt

/-- Subnormal-path mantissa field (float.js lines 186-190). -/
def Float.subnormalMant (F : Float) (uexp : ℤ) (normalizedData : List Char) : List Char :=
  let nexp : ℤ := 1 - F.biasInt
  let denExp : ℤ := uexp - nexp
  let denormalizedData := List.replicate (Int.toNat (-denExp - 1)) '0' ++ normalizedData
  jsSubstring denormalizedData 0 F.mantBits ++
    List.replicate (F.mantBits - denormalizedData.length) '0'

/-- The zero-padded binary exponent (float.js lines 192-193):
`"0".repeat(max(0, expBits - len)) + _expBits`, applied to
`_toBinaryInt(exp)` (which takes the absolute value). -/
def Float.expPadded (F : Float) (exp : ℤ) : List Char :=
  List.replicate (F.expBits - (toBinaryIntChars exp.natAbs).length) '0' ++
    toBinaryIntChars exp.natAbs

/-- Final exponent field on the normal path (float.js lines 192-199): the
padded bits, replaced by all ones when they exceed the exponent width
(which also sets the `inf` flag). -/
def Float.expFieldNormal (F : Float) (exp : ℤ) : List Char :=
  if F.expBits < (F.expPadded exp).length then List.replicate F.expBits '1'
  else F.expPadded exp

/-- Normal-path mantissa field (float.js lines 201-247).  The first guard
is `inf || Math.abs(num) > this.maxAbs`, where `inf` records that the
padded exponent overflowed the exponent width. -/
def Float.normalMant (F : Float) (num : ℚ) (rounding : Bool) (exp : ℤ)
    (normalizedData : List Char) : List Char :=
  if F.expBits < (F.expPadded exp).length ∨ F.maxAbs < |num| then
    List.replicate F.mantBits '0'
  else
    let s : ℕ := if 0 < exp then 1 else 0
    if normalizedData.length ≤ F.mantBits then
      let data := jsSubstring normalizedData s F.mantBits
      data ++ List.replicate (F.mantBits - data.length) '0'
    else
      let data0 := jsSubstring normalizedData s (F.mantBits + s)
      let data :=
        if rounding then
          let lsb := normalizedData.getD (F.mantBits + 1) '0'
          (carryAdd (if lsb = '1' then 1 else 0) 0 data0.reverse).reverse
        else data0
      data ++ List.replicate (F.mantBits - data.length) '0'

/-- Source `toBinary(num, rounding)` (float.js lines 139-251).  The integer part
of the decimal string is `trunc(num)`, whose absolute value is
`⌊|num|⌋`; the fractional part re-parsed from the digit string is
`|num| - ⌊|num|⌋` (absent digits parse to `NaN`, which like `0` skips the
fractional loop). -/
def Float.toBinary (F : Float) (num : ℚ) (rounding : Bool) : List Char :=
  let signBit : Char := if 0 < num then '0' else '1'
  let intN : ℕ := (⌊|num|⌋).toNat
  let decN : ℚ := |num| - ⌊|num|⌋
  let intBits : List Char := toBinaryIntChars intN
  let decBits : List Char := fracLoop (F.totalBits + 1) decN
  let uexp : ℤ := offsetExp intBits decBits
  let exp : ℤ := F.biasedExp uexp
  let normalizedData : List Char := stripZeros (intBits ++ decBits)
  signBit ::
    (if exp < 0 then
      List.replicate F.expBits '0' ++ F.subnormalMant uexp normalizedData
    else
      F.expFieldNormal exp ++ F.normalMant num rounding exp normalizedData)

/-- Modelled from the spec (section 6): `createDescriptor` as the spec
prescribes it for a reimplementation, failing with `InvalidLayout` when
`exponentBits < 1`.  This definition follows the spec's words and exists
only to be compared with the source constructor `Float.make`, which
performs no validation. -/
def createDescriptorSpec (exponent mantissa : ℕ) : Except String Float :=
  if exponent < 1 then .error "InvalidLayout"
  else .ok (Float.make exponent mantissa)

end FloatConv

namespace FloatConv

/-! ### Derived-constant bridges for layouts with `exponentBits ≥ 1` -/

theorem Float.make_expBits (e m : ℕ) : (Float.make e m).expBits = e := rfl

theorem Float.make_mantBits (e m : ℕ) : (Float.make e m).mantBits = m := rfl

theorem Float.make_totalBits (e m : ℕ) : (Float.make e m).totalBits = 1 + e + m := rfl

theorem Float.make_bias (e m : ℕ) (h : 1 ≤ e) :
    (Float.make e m).bias = ((2 ^ (e - 1) - 1 : ℕ) : ℚ) := by
  have h1 : ((e : ℤ) - 1) = ((e - 1 : ℕ) : ℤ) := by omega
  have h2 : (1 : ℕ) ≤ 2 ^ (e - 1) := Nat.one_le_pow _ _ (by norm_num)
  simp only [Float.make]
  rw [h1, zpow_natCast, Nat.cast_sub h2]
  push_cast
  ring

theorem Float.make_biasInt (e m : ℕ) (h : 1 ≤ e) :
    (Float.make e m).biasInt = ((2 ^ (e - 1) - 1 : ℕ) : ℤ) := by
  unfold Float.biasInt
  rw [Float.make_bias e m h]
  exact Rat.num_natCast _

theorem Float.make_biasInt_nonneg (e m : ℕ) (h : 1 ≤ e) :
    0 ≤ (Float.make e m).biasInt := by
  rw [Float.make_biasInt e m h]
  exact Int.natCast_nonneg _

theorem Float.make_maxAbs (e m : ℕ) :
    (Float.make e m).maxAbs = ((2 ^ (e + m) - 1 : ℕ) : ℚ) := by
  have h1 : (((1 + e + m : ℕ) : ℤ) - 1) = ((e + m : ℕ) : ℤ) := by push_cast; ring
  have h2 : (1 : ℕ) ≤ 2 ^ (e + m) := Nat.one_le_pow _ _ (by norm_num)
  simp only [Float.make]
  rw [h1, zpow_natCast, Nat.cast_sub h2]
  push_cast
  ring

theorem Float.make_maxAbs_nonneg (e m : ℕ) : 0 ≤ (Float.make e m).maxAbs := by
  rw [Float.make_maxAbs]
  exact Nat.cast_nonneg _

/-! ### Binary-digit lemmas for `_toBinaryInt` -/

theorem binDigitsAux_ones (k : ℕ) :
    ∀ fuel : ℕ, 1 ≤ k → 2 ^ k - 1 < fuel →
      binDigitsAux fuel (2 ^ k - 1) = List.replicate k '1' := by
  induction k with
  | zero => omega
  | succ k ih =>
    intro fuel hk hf
    have hpow : 2 ^ (k + 1) = 2 * 2 ^ k := by ring
    have hpos : 1 ≤ 2 ^ k := Nat.one_le_pow _ _ (by norm_num)
    cases fuel with
    | zero => omega
    | succ fuel =>
      by_cases hk0 : k = 0
      · subst hk0
        simp [binDigitsAux]
      · have h1 : (2 ^ (k + 1) - 1) % 2 = 1 := by omega
        have h2 : (2 ^ (k + 1) - 1) / 2 = 2 ^ k - 1 := by omega
        have h3 : 0 < 2 ^ k - 1 := by
          have : 2 ≤ 2 ^ k := by
            calc 2 = 2 ^ 1 := by norm_num
            _ ≤ 2 ^ k := Nat.pow_le_pow_right (by norm_num) (by omega)
          omega
        simp only [binDigitsAux, h1, h2, if_pos h3, if_pos rfl]
        rw [ih fuel (by omega) (by omega)]
        rfl

theorem toBinaryIntChars_zero : toBinaryIntChars 0 = ['0'] := rfl

theorem toBinaryIntChars_ones (k : ℕ) (hk : 1 ≤ k) :
    toBinaryIntChars (2 ^ k - 1) = List.replicate k '1' := by
  unfold toBinaryIntChars
  rw [binDigitsAux_ones k (2 ^ k - 1 + 1) hk (by omega), List.reverse_replicate]

theorem binDigitsAux_msb (n : ℕ) :
    ∀ fuel : ℕ, 0 < n → n < fuel → ∃ t, binDigitsAux fuel n = t ++ ['1'] := by
  induction n using Nat.strong_induction_on with
  | _ n ih =>
    intro fuel hn hf
    cases fuel with
    | zero => omega
    | succ fuel =>
      by_cases h2 : 0 < n / 2
      · obtain ⟨t, ht⟩ := ih (n / 2) (by omega) fuel h2 (by omega)
        refine ⟨(if n % 2 = 1 then '1' else '0') :: t, ?_⟩
        simp [binDigitsAux, if_pos h2, ht]
      · have h1 : n = 1 := by omega
        subst h1
        exact ⟨[], by simp [binDigitsAux]⟩

theorem toBinaryIntChars_pos (n : ℕ) (hn : 0 < n) :
    ∃ t, toBinaryIntChars n = '1' :: t := by
  obtain ⟨t, ht⟩ := binDigitsAux_msb n (n + 1) hn (by omega)
  exact ⟨t.reverse, by simp [toBinaryIntChars, ht]⟩

end FloatConv

namespace FloatConv

/-! ### `parseInt(-, 2)` lemmas -/

theorem foldl_bin_replicate_zero (k : ℕ) :
    ∀ a : ℕ, (List.replicate k '0').foldl
      (fun a c => 2 * a + (if c = '1' then 1 else 0)) a = a * 2 ^ k := by
  induction k with
  | zero => intro a; simp
  | succ k ih =>
    intro a
    rw [List.replicate_succ, List.foldl_cons, ih,
      if_neg (by decide : ¬('0':Char) = '1'), pow_succ]
    ring

theorem parseBin_replicate_zero (k : ℕ) : parseBin (List.replicate k '0') = 0 := by
  unfold parseBin
  rw [foldl_bin_replicate_zero k 0]
  simp

theorem foldl_bin_replicate_one (k : ℕ) :
    ∀ a : ℕ, (List.replicate k '1').foldl
      (fun a c => 2 * a + (if c = '1' then 1 else 0)) a = (a + 1) * 2 ^ k - 1 := by
  induction k with
  | zero => intro a; simp
  | succ k ih =>
    intro a
    rw [List.replicate_succ, List.foldl_cons, ih, if_pos rfl]
    have hpow : 2 ^ (k + 1) = 2 * 2 ^ k := by ring
    have hh : (2 * a + 1 + 1) * 2 ^ k = (a + 1) * 2 ^ (k + 1) := by rw [hpow]; ring
    omega

theorem parseBin_replicate_one (k : ℕ) : parseBin (List.replicate k '1') = 2 ^ k - 1 := by
  unfold parseBin
  rw [foldl_bin_replicate_one k 0]
  simp

theorem foldl_bin_pos (l : List Char) :
    ∀ a : ℕ, ('1' ∈ l ∨ 0 < a) →
      0 < l.foldl (fun a c => 2 * a + (if c = '1' then 1 else 0)) a := by
  induction l with
  | nil =>
    intro a h
    rcases h with h | h
    · simp at h
    · simpa using h
  | cons c t ih =>
    intro a h
    rw [List.foldl_cons]
    apply ih
    rcases h with h | h
    · rcases List.mem_cons.mp h with h | h
      · right
        rw [← h, if_pos rfl]
        omega
      · left; exact h
    · right
      split <;> omega

theorem parseBin_pos (l : List Char) (h : '1' ∈ l) : 0 < parseBin l :=
  foldl_bin_pos l 0 (Or.inl h)

theorem parseBin_eq_zero_iff (l : List Char) (hval : ∀ c ∈ l, c = '0' ∨ c = '1') :
    parseBin l = 0 ↔ ∀ c ∈ l, c = '0' := by
  constructor
  · intro h c hc
    rcases hval c hc with h0 | h1
    · exact h0
    · subst h1
      have := parseBin_pos l hc
      omega
  · intro h
    rw [List.eq_replicate_of_mem h, parseBin_replicate_zero]

/-! ### `_binaryFracToDec` lemmas -/

theorem binFracAux_replicate_zero (k : ℕ) :
    ∀ i : ℤ, binFracAux (List.replicate k '0') i = 0 := by
  induction k with
  | zero => intro i; rfl
  | succ k ih =>
    intro i
    rw [List.replicate_succ]
    show (if ('0':Char) = '1' then (1:ℚ) else 0) * (2:ℚ) ^ (-i) +
      binFracAux (List.replicate k '0') (i + 1) = 0
    rw [if_neg (by decide), ih]
    ring

/-! ### Fractional-loop lemmas -/

theorem fracLoop_length_le (fuel : ℕ) :
    ∀ f : ℚ, (fracLoop fuel f).length ≤ fuel := by
  induction fuel with
  | zero => intro f; simp [fracLoop]
  | succ fuel ih =>
    intro f
    rw [fracLoop]
    split
    · simpa using ih _
    · simp

theorem fracLoop_zero (fuel : ℕ) : fracLoop fuel 0 = [] := by
  cases fuel with
  | zero => rfl
  | succ fuel => simp [fracLoop]

/-! ### `substring` lemmas -/

theorem jsSubstring_nil (a b : ℕ) : jsSubstring [] a b = [] := by
  simp [jsSubstring]

theorem jsSubstring_of_le (l : List Char) (a b : ℕ) (hab : a ≤ b) (hb : b ≤ l.length) :
    jsSubstring l a b = (l.take b).drop a := by
  simp only [jsSubstring]
  rw [min_eq_left (le_trans hab hb), min_eq_left hb, max_eq_right hab, min_eq_left hab]

end FloatConv

namespace FloatConv

/-! ### Offset exponent, biased exponent, exponent field -/

theorem stripZeros_cons_one (t : List Char) : stripZeros ('1' :: t) = '1' :: t := by
  simp [stripZeros, List.dropWhile_cons]

theorem offsetExp_cons_one (t decBits : List Char) :
    offsetExp ('1' :: t) decBits = (t.length : ℤ) := by
  simp only [offsetExp, stripZeros_cons_one]
  rw [if_pos (List.mem_cons_self '1' t)]
  simp

theorem offsetExp_zero_input : offsetExp ['0'] [] = 0 := by decide

theorem biasedExp_zero_arg (F : Float) : F.biasedExp 0 = F.biasInt := by
  unfold Float.biasedExp
  by_cases h : F.biasInt = 0
  · simp [h]
  · rw [if_neg (by omega), zero_add]

theorem biasedExp_nonneg (F : Float) (u : ℤ) (hu : 0 ≤ u) (hb : 0 ≤ F.biasInt) :
    0 ≤ F.biasedExp u := by
  unfold Float.biasedExp
  split <;> omega

theorem expFieldNormal_length (F : Float) (exp : ℤ) :
    (F.expFieldNormal exp).length = F.expBits := by
  unfold Float.expFieldNormal
  split
  · simp
  · rename_i h
    unfold Float.expPadded at h ⊢
    simp only [List.length_append, List.length_replicate] at h ⊢
    omega

theorem expPadded_biasVal (e m : ℕ) (h : 1 ≤ e) :
    (Float.make e m).expPadded (((2 ^ (e - 1) - 1 : ℕ) : ℤ)) =
      '0' :: List.replicate (e - 1) '1' := by
  unfold Float.expPadded
  rw [Int.natAbs_ofNat, Float.make_expBits]
  by_cases he : e = 1
  · subst he
    simp [toBinaryIntChars_zero]
  · have hk : 1 ≤ e - 1 := by omega
    rw [toBinaryIntChars_ones (e - 1) hk]
    simp only [List.length_replicate]
    rw [show e - (e - 1) = 1 by omega]
    rfl

theorem expFieldNormal_biasVal (e m : ℕ) (h : 1 ≤ e) :
    (Float.make e m).expFieldNormal (((2 ^ (e - 1) - 1 : ℕ) : ℤ)) =
      '0' :: List.replicate (e - 1) '1' := by
  unfold Float.expFieldNormal
  rw [expPadded_biasVal e m h]
  rw [if_neg]
  simp only [List.length_cons, List.length_replicate, Float.make_expBits]
  omega

/-! ### Normal-path mantissa lemmas -/

theorem normalMant_overflow (F : Float) (num : ℚ) (r : Bool) (exp : ℤ)
    (nd : List Char) (h : F.maxAbs < |num|) :
    F.normalMant num r exp nd = List.replicate F.mantBits '0' := by
  unfold Float.normalMant
  rw [if_pos (Or.inr h)]

theorem normalMant_empty (F : Float) (num : ℚ) (r : Bool) (exp : ℤ)
    (h1 : ¬ F.expBits < (F.expPadded exp).length) (h2 : ¬ F.maxAbs < |num|) :
    F.normalMant num r exp [] = List.replicate F.mantBits '0' := by
  unfold Float.normalMant
  rw [if_neg (by tauto), if_pos (by simp)]
  simp [jsSubstring_nil]

end FloatConv

namespace FloatConv

/-! ### Substring helpers for decoding -/

theorem jsSubstring_cons_exp (c : Char) (l : List Char) (e : ℕ) (hle : e ≤ l.length) :
    jsSubstring (c :: l) 1 (1 + e) = l.take e := by
  rw [jsSubstring_of_le _ _ _ (by omega) (by simp; omega)]
  rw [show (1 + e) = e + 1 by omega]
  rw [List.take_succ_cons, List.drop_succ_cons, List.drop_zero]

theorem jsSubstring_cons_mant (c : Char) (l : List Char) (e k : ℕ) (hlen : l.length = e + k) :
    jsSubstring (c :: l) (1 + e) (1 + e + k) = l.drop e := by
  rw [jsSubstring_of_le _ _ _ (by omega) (by simp; omega)]
  have h1 : List.take (1 + e + k) (c :: l) = c :: l :=
    List.take_of_length_le (by simp; omega)
  rw [h1, show (1 + e) = e + 1 by omega, List.drop_succ_cons]

theorem binaryFracToDec_replicate_zero (k : ℕ) :
    binaryFracToDec (List.replicate k '0') = 0 :=
  binFracAux_replicate_zero k 1

theorem stripZeros_single_zero : stripZeros ['0'] = [] := rfl

/-- Shared helper for the two all-zero decode patterns. -/
theorem decode_zero_pattern_aux (e m : ℕ) (h : 1 ≤ e) (c : Char) (hc : c = '0' ∨ c = '1') :
    (Float.make e m).toDecimal (c :: List.replicate (e + m) '0') = .val 0 := by
  have hlen : (c :: List.replicate (e + m) '0').length = (Float.make e m).totalBits := by
    simp [Float.make_totalBits]
    omega
  have hval : ∀ x ∈ (c :: List.replicate (e + m) '0'), x = '0' ∨ x = '1' := by
    intro x hx
    rcases List.mem_cons.mp hx with h' | h'
    · rw [h']; exact hc
    · left; exact List.eq_of_mem_replicate h'
  have hsub1 : jsSubstring (c :: List.replicate (e + m) '0') 1 (1 + e) =
      List.replicate e '0' := by
    rw [jsSubstring_cons_exp c _ e (by simp only [List.length_replicate]; omega),
      List.take_replicate, min_eq_left (by omega)]
  have hsub2 : jsSubstring (c :: List.replicate (e + m) '0') (1 + e) (1 + e + m) =
      List.replicate m '0' := by
    rw [jsSubstring_cons_mant c _ e m (by simp), List.drop_replicate]
    congr 1
    omega
  unfold Float.toDecimal
  rw [if_neg (fun hne => hne hlen), if_neg (fun hne => hne hval)]
  simp only [Float.make_expBits, Float.make_mantBits, hsub1, hsub2,
    parseBin_replicate_zero, binaryFracToDec_replicate_zero, Nat.cast_zero]
  rw [if_neg (not_lt.mpr (by rw [Float.make_bias e m h]; positivity))]
  norm_num

/-- C10: for every layout with `exponentBits ≥ 1`, the all-zero bit string
and the bit string with sign `1` and all other bits `0` both decode to the
value zero (so neither is NaN or an infinity), and the raw exponent of the
all-zero string is `0`, taking the subnormal branch. -/
theorem decode_zero_patterns (e m : ℕ) (h : 1 ≤ e) :
    (Float.make e m).toDecimal ('0' :: List.replicate (e + m) '0') = .val 0 ∧
    (Float.make e m).toDecimal ('1' :: List.replicate (e + m) '0') = .val 0 ∧
    parseBin (jsSubstring ('0' :: List.replicate (e + m) '0') 1 (1 + e)) = 0 := by
  refine ⟨decode_zero_pattern_aux e m h '0' (Or.inl rfl),
    decode_zero_pattern_aux e m h '1' (Or.inr rfl), ?_⟩
  rw [jsSubstring_cons_exp '0' _ e (by simp only [List.length_replicate]; omega),
    List.take_replicate, min_eq_left (by omega), parseBin_replicate_zero]

/-- Witness for C10 at the layout `(4, 3)`. -/
theorem decode_zero_patterns_witness :
    (Float.make 4 3).toDecimal ('0' :: List.replicate 7 '0') = .val 0 ∧
    (Float.make 4 3).toDecimal ('1' :: List.replicate 7 '0') = .val 0 ∧
    parseBin (jsSubstring ('0' :: List.replicate 7 '0') 1 5) = 0 :=
  decode_zero_patterns 4 3 (by decide)

/-- C6: decoding any input whose length is not `totalBits`, or which
contains a character other than `'0'`/`'1'`, returns the NaN sentinel. -/
theorem decode_malformed (e m : ℕ) (bits : List Char)
    (h : bits.length ≠ (Float.make e m).totalBits ∨ ∃ c ∈ bits, ¬ (c = '0' ∨ c = '1')) :
    (Float.make e m).toDecimal bits = .nan := by
  unfold Float.toDecimal
  rcases h with h | h
  · rw [if_pos h]
  · by_cases hl : bits.length ≠ (Float.make e m).totalBits
    · rw [if_pos hl]
    · rw [if_neg hl, if_pos]
      obtain ⟨c, hc, hcc⟩ := h
      exact fun hall => hcc (hall c hc)

/-- Witness for C6: a two-character input for the 8-bit layout `(4, 3)`. -/
theorem decode_malformed_witness :
    (Float.make 4 3).toDecimal ['0', '1'] = .nan :=
  decode_malformed 4 3 ['0', '1'] (Or.inl (by decide))

/-- C7: the fractional-digit loop, called by `toBinary` with its source
bound of `totalBits + 1` iterations, emits at most `totalBits + 1` digits
for any fractional input in `[0, 1)`, and stops as soon as the remainder
is exactly `0`. -/
theorem fracLoop_bound (e m : ℕ) (f : ℚ) (fuel : ℕ) (h0 : 0 ≤ f) (h1 : f < 1) :
    (fracLoop ((Float.make e m).totalBits + 1) f).length ≤
        (Float.make e m).totalBits + 1 ∧
      fracLoop fuel 0 = [] :=
  ⟨fracLoop_length_le _ f, fracLoop_zero fuel⟩

/-- Witness for C7 at the layout `(4, 3)` with `f = 1/3` (a fraction whose
binary expansion never terminates) and `fuel = 5`. -/
theorem fracLoop_bound_witness :
    (fracLoop ((Float.make 4 3).totalBits + 1) (1/3)).length ≤
        (Float.make 4 3).totalBits + 1 ∧
      fracLoop 5 0 = [] :=
  fracLoop_bound 4 3 (1/3) 5 (by norm_num) (by norm_num)

end FloatConv

namespace FloatConv

/-- C1: round trip fails on the code.  In the layout `(2, 1)` the value `2`
is exactly representable (the bit string `"0100"` decodes to `2`), yet
`toBinary` maps `2` (with either rounding setting) to `"0001"`, because the
offset exponent equals the bias and line 175 then forces the biased
exponent to `0`; `"0001"` decodes to `1/2`, not `2`. -/
theorem roundtrip_failure_eval :
    (Float.make 2 1).toBinary 2 false = ['0', '0', '0', '1'] ∧
    (Float.make 2 1).toBinary 2 true = ['0', '0', '0', '1'] ∧
    (Float.make 2 1).toDecimal ['0', '0', '0', '1'] = .val (1/2) ∧
    (Float.make 2 1).toDecimal ['0', '1', '0', '0'] = .val 2 := by
  refine ⟨?_, ?_, ?_, ?_⟩ <;> with_unfolding_all decide

/-- C4: the rounding step does not increment the retained mantissa.  In the
layout `(4, 2)`, `1.375 = 1.011₂` has retained mantissa `"01"` and round
bit `1` (`normalizedData[3]`), so the claim requires the emitted mantissa
`"10"`; the code emits `"01"` unchanged (its carry loop is a no-op whenever
the last retained bit is `1`), i.e. `"0011101"`, not `"0011110"`.
Moreover, when the biased exponent is `0` no implicit bit is dropped, yet
the inspected bit is still `normalizedData[mantBits + 1]`, two positions
beyond the retained bits: encoding `0.875 = 0.111₂` in the layout `(2, 2)`
truncates to `"11"` with the discarded bit `1` never inspected. -/
theorem rounding_adder_eval :
    (Float.make 4 2).toBinary (11/8) true = ['0', '0', '1', '1', '1', '0', '1'] ∧
    (Float.make 4 2).toBinary (11/8) true ≠ ['0', '0', '1', '1', '1', '1', '0'] ∧
    (carryAdd 1 0 ['1', '0']).reverse = ['0', '1'] ∧
    (Float.make 2 2).toBinary (7/8) true = ['0', '0', '0', '1', '1'] := by
  refine ⟨?_, ?_, ?_, ?_⟩ <;> with_unfolding_all decide

/-- C2 counterexample: `encode(0.0, true)` in the layout `(4, 3)` yields
`"10111000"`: the sign bit is `'1'` (not `'0'`) and the exponent field is
`"0111"` (the binary of the bias, not all zeros). -/
theorem encode_zero_counterexample :
    (Float.make 4 3).toBinary 0 true = ['1', '0', '1', '1', '1', '0', '0', '0'] ∧
    ¬ ((Float.make 4 3).toBinary 0 true).take 5 = '0' :: List.replicate 4 '0' := by
  refine ⟨?_, ?_⟩ <;> with_unfolding_all decide

/-- C2 amended: for every layout with `exponentBits ≥ 1` and either
rounding setting, `encode(0.0, _)` yields sign bit `'1'` (zero takes the
non-positive branch), exponent field `'0'` followed by `expBits - 1` ones
(the binary of the bias zero-padded to the field width; all zeros only when
`expBits = 1`), and mantissa field all zeros. -/
theorem encode_zero (e m : ℕ) (r : Bool) (h : 1 ≤ e) :
    (Float.make e m).toBinary 0 r =
      '1' :: (('0' :: List.replicate (e - 1) '1') ++ List.replicate m '0') := by
  have hB := Float.make_biasInt e m h
  simp only [Float.toBinary, abs_zero, Int.floor_zero, Int.toNat_zero, Int.cast_zero,
    sub_zero, toBinaryIntChars_zero, fracLoop_zero, List.append_nil,
    stripZeros_single_zero, offsetExp_zero_input, biasedExp_zero_arg,
    lt_self_iff_false, if_false]
  rw [if_neg (not_lt.mpr (Float.make_biasInt_nonneg e m h)), hB]
  rw [expFieldNormal_biasVal e m h]
  rw [normalMant_empty _ _ _ _ ?h1 ?h2]
  case h1 =>
    rw [expPadded_biasVal e m h]
    simp only [List.length_cons, List.length_replicate, Float.make_expBits]
    omega
  case h2 =>
    rw [abs_zero]
    exact not_lt.mpr (Float.make_maxAbs_nonneg e m)
  rfl

/-- Witness for the amended C2 at the layout `(4, 3)` with rounding. -/
theorem encode_zero_witness :
    (Float.make 4 3).toBinary 0 true =
      '1' :: (('0' :: List.replicate 3 '1') ++ List.replicate 3 '0') :=
  encode_zero 4 3 true (by decide)

end FloatConv

namespace FloatConv

/-! ### Helpers for C3 and C5 -/

theorem bias_double_add_one (e : ℕ) (h : 1 ≤ e) :
    ((2 ^ (e - 1) - 1 : ℕ) : ℚ) * 2 + 1 = ((2 ^ e - 1 : ℕ) : ℚ) := by
  have h1 : (1:ℕ) ≤ 2 ^ (e - 1) := Nat.one_le_pow _ _ (by norm_num)
  have h2 : (1:ℕ) ≤ 2 ^ e := Nat.one_le_pow _ _ (by norm_num)
  rw [Nat.cast_sub h1, Nat.cast_sub h2]
  push_cast
  have hp : (2:ℚ) ^ (e - 1) * 2 = 2 ^ e := by
    rw [← pow_succ, Nat.sub_add_cancel h]
  linarith

theorem drop_expField (F : Float) (exp : ℤ) (l : List Char) :
    (F.expFieldNormal exp ++ l).drop F.expBits = l := by
  rw [← expFieldNormal_length F exp]
  exact List.drop_left _ _

/-- C3 helper (encode side): whenever `|v|` exceeds `maxAbs`, the emitted
mantissa field is all zeros. -/
theorem encode_overflow_mant (e m : ℕ) (v : ℚ) (r : Bool) (he : 1 ≤ e)
    (hv : (Float.make e m).maxAbs < |v|) :
    ((Float.make e m).toBinary v r).drop (1 + e) = List.replicate m '0' := by
  have hmax1 : (1:ℚ) ≤ (Float.make e m).maxAbs := by
    rw [Float.make_maxAbs]
    have h2 : 2 ≤ 2 ^ (e + m) := by
      calc 2 = 2 ^ 1 := by norm_num
      _ ≤ 2 ^ (e + m) := Nat.pow_le_pow_right (by norm_num) (by omega)
    exact_mod_cast (show (1:ℕ) ≤ 2 ^ (e + m) - 1 by omega)
  have hv1 : (1:ℚ) < |v| := lt_of_le_of_lt hmax1 hv
  have hfloor : 1 ≤ ⌊|v|⌋ := by
    rw [Int.le_floor]
    exact_mod_cast le_of_lt hv1
  have hintN : 0 < (⌊|v|⌋).toNat := by omega
  obtain ⟨t, ht⟩ := toBinaryIntChars_pos _ hintN
  simp only [Float.toBinary, ht, offsetExp_cons_one]
  rw [if_neg (not_lt.mpr (biasedExp_nonneg _ _ (Int.natCast_nonneg _)
    (Float.make_biasInt_nonneg e m he)))]
  rw [normalMant_overflow _ _ _ _ _ hv]
  rw [show (1 + e) = e + 1 by omega, List.drop_succ_cons]
  exact drop_expField (Float.make e m) _ _

/-- C3 helper (decode side): a sign bit followed by an all-ones exponent
field and an all-zero, nonempty mantissa field decodes to the signed
infinity. -/
theorem decode_inf_pattern (e m : ℕ) (b : Char) (he : 1 ≤ e) (hm : 1 ≤ m)
    (hb : b = '0' ∨ b = '1') :
    (Float.make e m).toDecimal (b :: (List.replicate e '1' ++ List.replicate m '0')) =
      .inf (if b = '0' then 1 else -1) := by
  set l : List Char := List.replicate e '1' ++ List.replicate m '0' with hl
  have hllen : l.length = e + m := by simp [hl]
  have hlen : (b :: l).length = (Float.make e m).totalBits := by
    simp only [List.length_cons, hllen, Float.make_totalBits]
    omega
  have hval : ∀ x ∈ b :: l, x = '0' ∨ x = '1' := by
    intro x hx
    rcases List.mem_cons.mp hx with h' | h'
    · rw [h']; exact hb
    · rw [hl] at h'
      rcases List.mem_append.mp h' with h' | h'
      · right; exact List.eq_of_mem_replicate h'
      · left; exact List.eq_of_mem_replicate h'
  have hsub1 : jsSubstring (b :: l) 1 (1 + e) = List.replicate e '1' := by
    rw [jsSubstring_cons_exp b _ e (by omega), hl]
    exact List.take_left' (by simp)
  have hsub2 : jsSubstring (b :: l) (1 + e) (1 + e + m) = List.replicate m '0' := by
    rw [jsSubstring_cons_mant b _ e m hllen, hl]
    exact List.drop_left' (by simp)
  have hid : ((Float.make e m).bias * 2 + 1) = ((2 ^ e - 1 : ℕ) : ℚ) := by
    rw [Float.make_bias e m he]
    exact bias_double_add_one e he
  have hraw : (Float.make e m).bias * 2 < ((parseBin (List.replicate e '1') : ℕ) : ℚ) := by
    rw [parseBin_replicate_one, ← hid]
    linarith
  have hopt : parseBinOpt (List.replicate m '0') = some 0 := by
    unfold parseBinOpt
    rw [if_neg (by
      intro hnil
      have := congrArg List.length hnil
      simp at this
      omega), parseBin_replicate_zero]
  unfold Float.toDecimal
  rw [if_neg (fun hne => hne hlen), if_neg (fun hne => hne hval)]
  simp only [Float.make_expBits, Float.make_mantBits, hsub1, hsub2]
  rw [if_pos hraw, if_pos ⟨by rw [parseBin_replicate_one, hid], hopt⟩]
  simp

/-- C3 (amended): for every layout with `exponentBits ≥ 1` and every value
`v` with `|v| > maxAbs`, the encoder emits a mantissa field of all zeros
(the exponent field, however, is not always all ones); and for every
layout with `mantissaBits ≥ 1`, decoding a bit string with exponent field
all ones and mantissa field all zeros returns the signed infinity. -/
theorem overflow_saturation :
    (∀ (e m : ℕ) (v : ℚ) (r : Bool), 1 ≤ e → (Float.make e m).maxAbs < |v| →
      ((Float.make e m).toBinary v r).drop (1 + e) = List.replicate m '0') ∧
    (∀ (e m : ℕ) (b : Char), 1 ≤ e → 1 ≤ m → (b = '0' ∨ b = '1') →
      (Float.make e m).toDecimal (b :: (List.replicate e '1' ++ List.replicate m '0')) =
        .inf (if b = '0' then 1 else -1)) :=
  ⟨fun e m v r he hv => encode_overflow_mant e m v r he hv,
   fun e m b he hm hb => decode_inf_pattern e m b he hm hb⟩

/-- C3 counterexample: in the layout `(4, 3)`, `128` exceeds
`maxAbs = 127`, yet `encode(128, _)` is the all-zero string `"00000000"`
(exponent field not all ones) and decoding it yields `0`, not an
infinity. -/
theorem overflow_counterexample :
    (Float.make 4 3).maxAbs < |(128:ℚ)| ∧
    (Float.make 4 3).toBinary 128 false = List.replicate 8 '0' ∧
    (((Float.make 4 3).toBinary 128 false).drop 1).take 4 ≠ List.replicate 4 '1' ∧
    (Float.make 4 3).toDecimal ((Float.make 4 3).toBinary 128 false) = .val 0 := by
  refine ⟨?_, ?_, ?_, ?_⟩ <;> with_unfolding_all decide

/-- Witness for the amended C3: both conjuncts instantiated in the layout
`(4, 3)`, the encode side at `v = 128` and the decode side at the
negative-infinity pattern `"11111000"`. -/
theorem overflow_saturation_witness :
    ((Float.make 4 3).toBinary 128 false).drop 5 = List.replicate 3 '0' ∧
    (Float.make 4 3).toDecimal
        ('1' :: (List.replicate 4 '1' ++ List.replicate 3 '0')) = .inf (-1) := by
  constructor
  · exact overflow_saturation.1 4 3 128 false (by decide)
      (by with_unfolding_all decide)
  · exact overflow_saturation.2 4 3 '1' (by decide) (by decide) (Or.inr rfl)

end FloatConv

namespace FloatConv

/-- C5 (amended): for layouts with `exponentBits ≥ 1` and
`mantissaBits ≥ 1`, and any well-formed bit string whose raw exponent
exceeds twice the bias, decoding returns the signed infinity exactly when
the raw exponent equals `2 * bias + 1` and the mantissa field is all
zeros; in every other such case it returns NaN. -/
theorem decode_special (e m : ℕ) (bits : List Char) (he : 1 ≤ e) (hm : 1 ≤ m)
    (hlen : bits.length = (Float.make e m).totalBits)
    (hval : ∀ c ∈ bits, c = '0' ∨ c = '1')
    (hraw : (Float.make e m).bias * 2 < (parseBin (jsSubstring bits 1 (1 + e)) : ℚ)) :
    ((Float.make e m).toDecimal bits = .inf (if bits.getD 0 ' ' = '0' then 1 else -1) ↔
      ((parseBin (jsSubstring bits 1 (1 + e)) : ℚ) = (Float.make e m).bias * 2 + 1 ∧
        ∀ c ∈ jsSubstring bits (1 + e) (1 + e + m), c = '0')) ∧
    (¬ ((parseBin (jsSubstring bits 1 (1 + e)) : ℚ) = (Float.make e m).bias * 2 + 1 ∧
        ∀ c ∈ jsSubstring bits (1 + e) (1 + e + m), c = '0') →
      (Float.make e m).toDecimal bits = .nan) := by
  have hlen' : bits.length = 1 + e + m := hlen
  have hmant : jsSubstring bits (1 + e) (1 + e + m) = bits.drop (1 + e) := by
    rw [jsSubstring_of_le _ _ _ (by omega) (by omega),
      List.take_of_length_le (by omega)]
  have hmlen : (jsSubstring bits (1 + e) (1 + e + m)).length = m := by
    rw [hmant, List.length_drop]
    omega
  have hmne : jsSubstring bits (1 + e) (1 + e + m) ≠ [] := by
    intro hnil
    rw [hnil] at hmlen
    simp at hmlen
    omega
  have hmval : ∀ c ∈ jsSubstring bits (1 + e) (1 + e + m), c = '0' ∨ c = '1' := by
    intro c hc
    rw [hmant] at hc
    exact hval c (List.drop_subset _ _ hc)
  have hbridge : parseBinOpt (jsSubstring bits (1 + e) (1 + e + m)) = some 0 ↔
      ∀ c ∈ jsSubstring bits (1 + e) (1 + e + m), c = '0' := by
    unfold parseBinOpt
    rw [if_neg hmne, Option.some_inj]
    exact parseBin_eq_zero_iff _ hmval
  unfold Float.toDecimal
  rw [if_neg (fun hne => hne hlen), if_neg (fun hne => hne hval)]
  simp only [Float.make_expBits, Float.make_mantBits]
  rw [if_pos hraw]
  by_cases hcond : (parseBin (jsSubstring bits 1 (1 + e)) : ℚ) =
      (Float.make e m).bias * 2 + 1 ∧
      parseBinOpt (jsSubstring bits (1 + e) (1 + e + m)) = some 0
  · rw [if_pos hcond]
    refine ⟨⟨fun _ => ⟨hcond.1, hbridge.mp hcond.2⟩, fun _ => rfl⟩, fun hn => ?_⟩
    exact absurd ⟨hcond.1, hbridge.mp hcond.2⟩ hn
  · rw [if_neg hcond]
    refine ⟨⟨fun hh => DecResult.noConfusion hh, fun hr => ?_⟩, fun _ => rfl⟩
    exact absurd ⟨hr.1, hbridge.mpr hr.2⟩ hcond

/-- C5 counterexample: in the layout `(2, 0)` the bit string `"011"` has
raw exponent `3 = 2 * bias + 1` and a (vacuously) all-zero mantissa field,
yet decodes to NaN and not to infinity, because JS `parseInt` of the empty
mantissa is `NaN`. -/
theorem decode_special_counterexample :
    (Float.make 2 0).toDecimal ['0', '1', '1'] = .nan ∧
    (parseBin (jsSubstring ['0', '1', '1'] 1 3) : ℚ) = (Float.make 2 0).bias * 2 + 1 ∧
    (∀ c ∈ jsSubstring ['0', '1', '1'] 3 3, c = '0') := by
  refine ⟨?_, ?_, ?_⟩ <;> with_unfolding_all decide

/-- Witness for the amended C5: the layout `(2, 1)` and the infinity
pattern `"0110"`, via the left-to-right direction of the theorem. -/
theorem decode_special_witness :
    (Float.make 2 1).toDecimal ['0', '1', '1', '0'] = .inf 1 :=
  (decode_special 2 1 ['0', '1', '1', '0'] (by decide) (by decide) (by decide)
      (by decide) (by with_unfolding_all decide)).1.mpr
    ⟨by with_unfolding_all decide, by decide⟩

/-- The normal-path mantissa reads its numeric argument only through
`Math.abs`. -/
theorem normalMant_neg (F : Float) (num : ℚ) (r : Bool) (exp : ℤ) (nd : List Char) :
    F.normalMant (-num) r exp nd = F.normalMant num r exp nd := by
  unfold Float.normalMant
  rw [abs_neg]

/-- C8: for every layout with `exponentBits ≥ 1` and every exactly
representable value `v` (one some well-formed bit string decodes to),
`encode(-v, false)` and `encode(v, false)` agree on everything after the
sign bit: the exponent and mantissa fields are identical.  (The encoder
uses `v` only through `|v|` after choosing the sign bit.) -/
theorem encode_sign_symmetry (e m : ℕ) (v : ℚ) (h : 1 ≤ e)
    (hrep : ∃ bits : List Char, (Float.make e m).toDecimal bits = .val v) :
    ((Float.make e m).toBinary (-v) false).drop 1 =
      ((Float.make e m).toBinary v false).drop 1 := by
  simp only [Float.toBinary, abs_neg, normalMant_neg, List.drop_one, List.tail_cons]

/-- Witness for C8 at the layout `(4, 3)` with `v = 9/4`, which is
representable because `"01000001"` decodes to it. -/
theorem encode_sign_symmetry_witness :
    ((Float.make 4 3).toBinary (-(9/4)) false).drop 1 =
      ((Float.make 4 3).toBinary (9/4) false).drop 1 :=
  encode_sign_symmetry 4 3 (9/4) (by decide)
    ⟨['0', '1', '0', '0', '0', '0', '0', '1'], by with_unfolding_all decide⟩

/-- C9 counterexample: the source constructor does not fail for
`exponentBits = 0`; it happily returns a descriptor (with the non-integral
bias `-1/2`), while the spec's `createDescriptor` prescribes an
`InvalidLayout` error for that input. -/
theorem make_no_validation_counterexample :
    createDescriptorSpec 0 3 = .error "InvalidLayout" ∧
      Float.make 0 3 =
        { expBits := 0, mantBits := 3, totalBits := 4, bias := -(1/2), maxAbs := 7 } := by
  refine ⟨rfl, ?_⟩
  with_unfolding_all decide

/-- C9 (amended): the constructor never fails and performs no validation:
for every choice of widths it returns a descriptor with
`totalBits = 1 + e + m` and `maxAbs = 2^(totalBits-1) - 1`; the bias is
the integer `2^(e-1) - 1` when `e ≥ 1`, and the non-integral `-1/2` when
`e = 0` (instead of an `InvalidLayout` failure). -/
theorem make_no_validation (e m : ℕ) :
    (Float.make e m).totalBits = 1 + e + m ∧
    (Float.make e m).maxAbs = ((2 ^ (e + m) - 1 : ℕ) : ℚ) ∧
    (1 ≤ e → (Float.make e m).bias = ((2 ^ (e - 1) - 1 : ℕ) : ℚ)) ∧
    (e = 0 → (Float.make e m).bias = -(1/2)) := by
  refine ⟨rfl, Float.make_maxAbs e m, fun h => Float.make_bias e m h, fun h0 => ?_⟩
  subst h0
  norm_num [Float.make]

/-- Witness for the amended C9 at the layouts `(4, 3)` and `(0, 3)`. -/
theorem make_no_validation_witness :
    (Float.make 4 3).bias = ((2 ^ 3 - 1 : ℕ) : ℚ) ∧
      (Float.make 0 3).bias = -(1/2) :=
  ⟨(make_no_validation 4 3).2.2.1 (by decide), (make_no_validation 0 3).2.2.2 rfl⟩

end FloatConv
